import Mathlib

/-!
Shallow embedding of the userguide download service (Go) into Lean 4.

Go strings are modelled as `List Char`; bytes produced by percent-decoding
are modelled as characters with the byte's code point.  Only the POSIX
path separator `/` is relevant (the service targets a Unix deployment);
`filepath` functions are embedded in their Unix form, directly from the
Go standard library algorithms the source calls.
-/

namespace UserGuide

/-- A hexadecimal digit's value, as used by `net/url`'s unhex. -/
def hexVal (c : Char) : Option Nat :=
  if '0' ≤ c ∧ c ≤ '9' then some (c.toNat - '0'.toNat)
  else if 'a' ≤ c ∧ c ≤ 'f' then some (c.toNat - 'a'.toNat + 10)
  else if 'A' ≤ c ∧ c ≤ 'F' then some (c.toNat - 'A'.toNat + 10)
  else none

/-- `url.QueryUnescape`: percent-decodes once; `+` becomes space; a `%` not
followed by two hex digits is an error (`none`). -/
def queryUnescape : List Char → Option (List Char)
  | [] => some []
  | '%' :: rest =>
    match rest with
    | a :: b :: t =>
      match hexVal a, hexVal b with
      | some x, some y => (queryUnescape t).map (fun d => Char.ofNat (16 * x + y) :: d)
      | _, _ => none
    | _ => none
  | '+' :: t => (queryUnescape t).map (fun d => ' ' :: d)
  | c :: t => (queryUnescape t).map (fun d => c :: d)

/-- A control character in the sense of the validator's scan:
code point below 32 and not TAB (9), LF (10) or CR (13). -/
def isCtl (c : Char) : Bool :=
  c.toNat < 32 && c.toNat != 9 && c.toNat != 10 && c.toNat != 13

/-- One character of the class `[a-zA-Z0-9._-]` of the validator's pattern,
by code point: `a`-`z` (97-122), `A`-`Z` (65-90), `0`-`9` (48-57), `.`, `_`, `-`. -/
def wordChar (c : Char) : Bool :=
  (97 ≤ c.toNat && c.toNat ≤ 122) || (65 ≤ c.toNat && c.toNat ≤ 90) ||
    (48 ≤ c.toNat && c.toNat ≤ 57) || c == '.' || c == '_' || c == '-'

/-- `regexp.MatchString` for the anchored pattern `[a-zA-Z0-9._-]+`:
non-empty and every character in the class. -/
def matchesPattern (l : List Char) : Bool :=
  !l.isEmpty && l.all wordChar

/-- `strings.ToLower`, on the ASCII range the validator can reach. -/
def lowerStr (l : List Char) : List Char :=
  l.map Char.toLower

/-- The dangerous substrings of `ValidateFilename`, in source order. -/
def dangerousPatterns : List (List Char) :=
  [['.', '.'], ['~', '/'], ['/'], ['\\'], [':'], ['*'], ['?'], ['"'], ['<'], ['>'], ['|']]

/-- `strings.Contains`: `pat` occurs as a contiguous substring of the list. -/
def containsSub (pat : List Char) : List Char → Bool
  | [] => pat.isEmpty
  | c :: t => pat.isPrefixOf (c :: t) || containsSub pat t

/-- Final step of `filepath.Base`: keep the part of the (already
trailing-separator-free) path after its last separator; all-separator
input gives `"/"`. -/
def baseFinish (l1 : List Char) : List Char :=
  if ((l1.reverse.takeWhile (fun c => c != '/')).reverse).isEmpty then ['/']
  else (l1.reverse.takeWhile (fun c => c != '/')).reverse

/-- `filepath.Base` (Unix): strip trailing separators, then keep the part
after the last separator; empty input gives `"."`. -/
def base (l : List Char) : List Char :=
  if l.isEmpty then ['.']
  else baseFinish ((l.reverse.dropWhile (fun c => c == '/')).reverse)

/-- Helper for `filepath.Ext`: scans the reversed string; stops at a
separator, and returns from the last dot of the final element. -/
def extAux : List Char → List Char → List Char
  | [], _ => []
  | c :: t, acc =>
    if c == '/' then []
    else if c == '.' then c :: acc
    else extAux t (c :: acc)

/-- `filepath.Ext` (Unix): the suffix beginning at the final dot in the
final element; empty if there is no dot. -/
def ext (l : List Char) : List Char :=
  extAux l.reverse []

/-- Errors of the service pipeline; one constructor per distinct
`fmt.Errorf` message in the source. -/
inductive FileErr where
  | invalidEncoding
  | nullByte
  | controlChar
  | invalidChars
  | tooLong
  | dangerousPattern (pat : List Char)
  | invalidAfterSanitization
  | extensionNotAllowed (e : List Char)
  | hiddenFile
  | accessDenied
  deriving DecidableEq, Repr

/-- `Utils.ValidateFilename`: decode once, scan for NUL and control
characters, match the strict pattern, bound the length, reject dangerous
substrings case-insensitively, then take the path base and reject the
degenerate names. -/
def validateFilename (filename : List Char) : Except FileErr (List Char) :=
  match queryUnescape filename with
  | none => .error .invalidEncoding
  | some decoded =>
    if decoded.contains '\x00' then .error .nullByte
    else if decoded.any isCtl then .error .controlChar
    else if !matchesPattern decoded then .error .invalidChars
    else if decoded.length > 255 then .error .tooLong
    else
      match dangerousPatterns.find? (fun p => containsSub p (lowerStr decoded)) with
      | some p => .error (.dangerousPattern p)
      | none =>
        if (base decoded).isEmpty || base decoded = ['.'] || base decoded = ['.', '.'] then
          .error .invalidAfterSanitization
        else .ok (base decoded)

/-- The extension allow-list of `Utils.IsAllowedExtension`, in source order. -/
def allowedExtensions : List (List Char) :=
  [".pdf".toList, ".doc".toList, ".docx".toList, ".txt".toList, ".md".toList]

/-- `Utils.IsAllowedExtension`: the lowercased `filepath.Ext` is compared
against each allow-listed extension in turn. -/
def isAllowedExtension (filename : List Char) : Bool :=
  allowedExtensions.any (fun allowed => lowerStr (ext filename) == allowed)

/-- One step of `filepath.Clean`'s element loop: `.` and empty elements are
dropped, `..` pops a normal element, stays at the root, and accumulates when
nothing poppable remains in a relative path. -/
def cleanPush (rooted : Bool) (stack : List (List Char)) (seg : List Char) : List (List Char) :=
  if seg.isEmpty || seg = ['.'] then stack
  else if seg = ['.', '.'] then
    match stack with
    | s :: rest => if s = ['.', '.'] then seg :: stack else rest
    | [] => if rooted then [] else [seg]
  else seg :: stack

/-- Whether a path is rooted (starts with the separator). -/
def isRooted (p : List Char) : Bool :=
  p.head? == some '/'

/-- Reassembly of `filepath.Clean`'s output buffer from the element stack. -/
def cleanAssemble (rooted : Bool) (stack : List (List Char)) : List Char :=
  if rooted then '/' :: List.intercalate ['/'] stack.reverse
  else if (List.intercalate ['/'] stack.reverse).isEmpty then ['.']
  else List.intercalate ['/'] stack.reverse

/-- `filepath.Clean` (Unix): purely lexical simplification — it does not
consult the filesystem and resolves no symlink. -/
def clean (p : List Char) : List Char :=
  if p.isEmpty then ['.']
  else cleanAssemble (isRooted p) ((p.splitOn '/').foldl (cleanPush (isRooted p)) [])

/-- `filepath.Abs` with an explicit working directory: an already-absolute
path is just cleaned, a relative one is joined onto `cwd` and cleaned.
No symlink is resolved. -/
def absPath (cwd p : List Char) : List Char :=
  if p.head? = some '/' then clean p else clean (cwd ++ '/' :: p)

/-- `filepath.Join` of two elements: empty elements are ignored and the
result is cleaned. -/
def joinPath (a b : List Char) : List Char :=
  if a.isEmpty then (if b.isEmpty then [] else clean b)
  else clean (a ++ '/' :: b)

/-- `filepath.Dir`: everything before the final element, cleaned. -/
def dirOf (p : List Char) : List Char :=
  clean ((p.reverse.dropWhile (fun c => c != '/')).reverse)

/-- An object of the modelled filesystem. -/
inductive FsEntry where
  | file
  | dir
  | symlink (target : List Char)
  deriving DecidableEq, Repr

/-- Filesystem model: a finite map from cleaned absolute paths to entries.
Symlinks are modelled on whole paths (the final component), which is what
the containment question is about. -/
def Fs := List (List Char × FsEntry)

def lookupFs (fs : Fs) (p : List Char) : Option FsEntry :=
  (List.find? (fun e => e.1 == p) fs).map (fun e => e.2)

/-- Symlink resolution with fuel (the OS bounds link chains): from a cleaned
absolute path to the canonical path of the object finally reached.  A
relative link target is interpreted relative to the link's directory. -/
def resolvePath (fs : Fs) : Nat → List Char → Option (List Char)
  | 0, _ => none
  | fuel + 1, p =>
    match lookupFs fs p with
    | some (.symlink target) =>
      resolvePath fs fuel
        (if target.head? = some '/' then clean target else clean (dirOf p ++ '/' :: target))
    | some _ => some p
    | none => none

/-- Fuel for symlink chains; any bound at least the chain length behaves
like the OS's ELOOP limit. -/
def linkFuel : Nat := 40

/-- `os.Stat` on the model: follows symlinks and returns the entry of the
object finally reached (`none` on a missing object or a link loop). -/
def statFs (fs : Fs) (cwd p : List Char) : Option FsEntry :=
  (resolvePath fs linkFuel (absPath cwd p)).bind (lookupFs fs)

/-- `Utils.IsFileSecure`: stat must succeed and the object must not be a
directory; then the `filepath.Abs` forms of the candidate and the base are
compared by a syntactic prefix test — the compared paths are NOT
symlink-resolved. -/
def isFileSecure (fs : Fs) (cwd fullPath basePath : List Char) : Bool :=
  match statFs fs cwd fullPath with
  | none => false
  | some .dir => false
  | some _ =>
    let absBase := absPath cwd basePath
    let absFile := absPath cwd fullPath
    (absBase ++ ['/']).isPrefixOf absFile || absFile == absBase

/-- Modelled from the spec: the canonical (absolute, symlink-resolved) form
of a path — the form the spec mandates for the containment comparison. -/
def canonicalPath (fs : Fs) (cwd p : List Char) : Option (List Char) :=
  resolvePath fs linkFuel (absPath cwd p)

/-- Modelled from the spec: canonical containment — the canonical candidate
equals the canonical base directory or is strictly nested under it. -/
def canonicallyContained (fs : Fs) (cwd candidate basePath : List Char) : Bool :=
  match canonicalPath fs cwd candidate, canonicalPath fs cwd basePath with
  | some cf, some cb => (cb ++ ['/']).isPrefixOf cf || cf == cb
  | _, _ => false

/-- `FileService.DownloadUserGuide`: validate the configured filename, check
the extension allow-list, check the hidden-file rule, join with the base
path, check `IsFileSecure`, and return the absolute path. -/
def downloadUserGuide (fs : Fs) (cwd basePath userGuideFile : List Char) :
    Except FileErr (List Char) :=
  match validateFilename userGuideFile with
  | .error e => .error e
  | .ok cleanFilename =>
    if !isAllowedExtension cleanFilename then
      .error (.extensionNotAllowed (lowerStr (ext cleanFilename)))
    else if ['.'].isPrefixOf cleanFilename && (ext cleanFilename).isEmpty then
      .error .hiddenFile
    else if !isFileSecure fs cwd (joinPath basePath cleanFilename) basePath then
      .error .accessDenied
    else .ok (absPath cwd (joinPath basePath cleanFilename))

/-- The filesystem of the symlink scenario: `/data/guides/link.pdf` is a
symlink pointing at `/etc/secret.pdf`, outside the base `/data/guides`. -/
def demoFs : Fs :=
  [("/data".toList, .dir),
   ("/data/guides".toList, .dir),
   ("/data/guides/link.pdf".toList, .symlink "/etc/secret.pdf".toList),
   ("/etc".toList, .dir),
   ("/etc/secret.pdf".toList, .file)]

example : clean "/a//b/../c/.".toList = "/a/c".toList := by decide
example : clean "..".toList = "..".toList := by decide
example : absPath "/srv".toList "x/y".toList = "/srv/x/y".toList := by decide
example : joinPath "/data/guides".toList "link.pdf".toList = "/data/guides/link.pdf".toList := by
  decide
example : isFileSecure demoFs "/srv".toList "/data/guides/link.pdf".toList "/data/guides".toList
    = true := by decide
example : canonicallyContained demoFs "/srv".toList "/data/guides/link.pdf".toList
    "/data/guides".toList = false := by decide
example : downloadUserGuide demoFs "/srv".toList "/data/guides".toList "link.pdf".toList
    = .ok "/data/guides/link.pdf".toList := by rfl
example : downloadUserGuide demoFs "/srv".toList "/data/guides".toList "notes.exe".toList
    = .error (.extensionNotAllowed ".exe".toList) := by rfl

/-- The Latin-1 fragment of `unicode.IsSpace`, which is all
`strings.TrimSpace` can meet on the configuration lines of interest. -/
def isSpaceGo (c : Char) : Bool :=
  c == ' ' || c == '\t' || c == '\n' || c == '\x0b' || c == '\x0c' || c == '\r' ||
    c == '\x85' || c == '\xa0'

/-- Leading white space removed. -/
def trimLeft (l : List Char) : List Char :=
  l.dropWhile isSpaceGo

/-- Trailing white space removed. -/
def trimRight (l : List Char) : List Char :=
  (l.reverse.dropWhile isSpaceGo).reverse

/-- `strings.TrimSpace`: drop leading and trailing white space. -/
def trimSpace (l : List Char) : List Char :=
  trimRight (trimLeft l)

/-- `strings.SplitN(line, "=", 2)` reduced to what the loader looks at:
`none` when the line has no `=` (Go then yields a single part and the
loader skips the line), otherwise the parts before and after the first `=`. -/
def splitEq (l : List Char) : Option (List Char × List Char) :=
  match l.dropWhile (fun c => c != '=') with
  | [] => none
  | _ :: t => some (l.takeWhile (fun c => c != '='), t)

/-- The configuration record of `Config`. -/
structure Config where
  userGuidePath : List Char
  port : List Char
  userGuideFile : List Char
  deriving DecidableEq, Repr

/-- The default configuration built at the top of `LoadConfig`. -/
def defaultConfig : Config :=
  ⟨"./userguides".toList, "8080".toList, "user-guide.pdf".toList⟩

/-- The key dispatch of `LoadConfig`'s switch: a recognized key overrides
its field with the (trimmed) value, anything else is ignored. -/
def applyKV (c : Config) (key value : List Char) : Config :=
  if key = "userguide.path".toList then { c with userGuidePath := value }
  else if key = "server.port".toList then { c with port := value }
  else if key = "userguide.filename".toList then { c with userGuideFile := value }
  else c

/-- One iteration of `LoadConfig`'s scanner loop. -/
def processLine (c : Config) (raw : List Char) : Config :=
  if (trimSpace raw).isEmpty || ['#'].isPrefixOf (trimSpace raw) then c
  else
    match splitEq (trimSpace raw) with
    | none => c
    | some (k, v) => applyKV c (trimSpace k) (trimSpace v)

/-- `LoadConfig`: `none` models a file that could not be opened (the loader
logs a warning and returns the defaults with a nil error); otherwise the
file's lines are folded through the scanner loop. -/
def loadConfig : Option (List (List Char)) → Config
  | none => defaultConfig
  | some lines => lines.foldl processLine defaultConfig

example : loadConfig (some ["# c".toList, "".toList, " server.port = 9090 ".toList]) =
    { defaultConfig with port := "9090".toList } := by decide
example : loadConfig (some ["nonsense line".toList, "other.key=1".toList]) = defaultConfig := by
  decide

/-- An HTTP response body: either fixed text or the contents of a file,
identified by the path handed to `http.ServeFile`. -/
inductive RespBody where
  | text (s : String)
  | file (path : List Char)
  deriving DecidableEq, Repr

/-- An HTTP response: status code, header map, body. -/
structure Response where
  status : Nat
  headers : List (String × String)
  body : RespBody
  deriving DecidableEq, Repr

/-- `w.Header().Set`: replaces any previous value of the key. -/
def setHeader (hs : List (String × String)) (k v : String) : List (String × String) :=
  (k, v) :: hs.filter (fun e => e.1 != k)

/-- Look a header up in a header map. -/
def headerGet (hs : List (String × String)) (k : String) : Option String :=
  (List.find? (fun e => e.1 == k) hs).map (fun e => e.2)

/-- `Utils.EscapeForHeader`: every `"` becomes `\"`. -/
def escapeForHeader (l : List Char) : List Char :=
  l.foldr (fun c acc => (if c = '"' then ['\\', '"'] else [c]) ++ acc) []

/-- `Utils.GetContentType`: the media type for a lowercased extension. -/
def getContentType (filename : List Char) : String :=
  let e := lowerStr (ext filename)
  if e = ".pdf".toList then "application/pdf"
  else if e = ".doc".toList then "application/msword"
  else if e = ".docx".toList then
    "application/vnd.openxmlformats-officedocument.wordprocessingml.document"
  else if e = ".txt".toList then "text/plain"
  else if e = ".md".toList then "text/markdown"
  else "application/octet-stream"

/-- `http.Error` on the model: sets `Content-Type`, sets
`X-Content-Type-Options: nosniff`, writes the status and the message. -/
def httpError (hs : List (String × String)) (msg : String) (status : Nat) : Response :=
  { status := status,
    headers := setHeader (setHeader hs "Content-Type" "text/plain; charset=utf-8")
      "X-Content-Type-Options" "nosniff",
    body := .text msg }

/-- `FileHandler.DownloadUserGuideHandler`, as a function of the service
result and of the header map already written by enclosing middleware: any
service error becomes a generic 404; success serves the file with headers
computed from `filepath.Base` of the served path. -/
def downloadHandler (result : Except FileErr (List Char))
    (hs : List (String × String)) : Response :=
  match result with
  | .error _ => httpError hs "User guide not available" 404
  | .ok filePath =>
    let safeFilename := base filePath
    let h1 := setHeader hs "Content-Type" (getContentType safeFilename)
    let h2 := setHeader h1 "Content-Disposition"
      ("attachment; filename=\"" ++ String.mk (escapeForHeader safeFilename) ++ "\"")
    let h3 := setHeader h2 "X-Content-Type-Options" "nosniff"
    let h4 := setHeader h3 "X-Frame-Options" "DENY"
    let h5 := setHeader h4 "Cache-Control" "public, max-age=3600"
    { status := 200, headers := h5, body := .file filePath }

/-- `http.NotFound`: `http.Error` with the fixed 404 page, on a fresh
header map (the middleware returns before writing its own headers). -/
def notFoundResponse : Response :=
  httpError [] "404 page not found" 404

/-- The five security headers `securityMiddleware` writes, with values. -/
def securityHeaderList : List (String × String) :=
  [("X-Content-Type-Options", "nosniff"),
   ("X-Frame-Options", "DENY"),
   ("X-XSS-Protection", "1; mode=block"),
   ("Cache-Control", "public, max-age=3600"),
   ("Referrer-Policy", "strict-origin-when-cross-origin")]

/-- `securityMiddleware`: trailing-slash paths (`strings.HasSuffix(path, "/")`)
are answered 404 before any header is written and before any handler runs;
otherwise the five security headers are written and the wrapped handler
continues on that header map. -/
def securityMiddleware (next : List (String × String) → Response)
    (path : List Char) : Response :=
  if ['/'].isSuffixOf path then notFoundResponse
  else next (securityHeaderList.foldl (fun hs e => setHeader hs e.1 e.2) [])

/-- The download endpoint as composed in `main`: the security middleware
around the download handler around the service pipeline. -/
def app (fs : Fs) (cwd basePath userGuideFile path : List Char) : Response :=
  securityMiddleware (downloadHandler (downloadUserGuide fs cwd basePath userGuideFile)) path

/-- A request as the auth middleware sees it: `none` models an absent
`Authorization` header (`r.Header.Get` then yields the empty string). -/
structure Req where
  auth : Option (List Char)

/-- `strings.TrimPrefix`. -/
def trimPre (s pre : List Char) : List Char :=
  if pre.isPrefixOf s then s.drop pre.length else s

/-- The token comparison of `AuthMiddleware`: the header value with a
leading `Bearer ` stripped must equal the expected static token. -/
def authAllows (auth : Option (List Char)) : Bool :=
  trimPre (auth.getD []) "Bearer ".toList == "valid-oauth-token".toList

/-- The 401 response `http.Error(w, "Unauthorized", 401)` produces. -/
def unauthorizedResponse : Response :=
  httpError [] "Unauthorized" 401

/-- `AuthMiddleware`: reject with 401 unless the token check passes, else
run the wrapped handler. -/
def authMiddleware (next : Req → Response) (r : Req) : Response :=
  if authAllows r.auth then next r else unauthorizedResponse

example : authAllows (some "Bearer valid-oauth-token".toList) = true := by decide
example : authAllows (some "valid-oauth-token".toList) = true := by decide
example : authAllows none = false := by decide
example : authAllows (some "Bearer wrong".toList) = false := by decide

/-- The traversal sequence `../`. -/
def travSeq : List Char := ['.', '.', '/']

/-- The input contains `../` raw, after one percent-decode, or after two
percent-decodes (raw, single-encoded, double-encoded traversal). -/
def containsTraversalEncoded (s : List Char) : Bool :=
  containsSub travSeq s ||
    (match queryUnescape s with
     | some d =>
       containsSub travSeq d ||
         (match queryUnescape d with
          | some d2 => containsSub travSeq d2
          | none => false)
     | none => false)

/-- A downstream handler that marks having been reached with a 200. -/
def constOkHandler : Req → Response :=
  fun _ => { status := 200, headers := [], body := .text "reached" }

example : validateFilename "report.pdf".toList = .ok "report.pdf".toList := by rfl
example : validateFilename "..%2f..%2fetc%2fpasswd".toList = .error .invalidChars := by rfl
example : validateFilename "%252e%252e%252fx".toList = .error .invalidChars := by rfl
example : validateFilename ".pdf".toList = .ok ".pdf".toList := by rfl
example : validateFilename "a%zz".toList = .error .invalidEncoding := by rfl
example : validateFilename "%2e%2e".toList = .error (.dangerousPattern ['.', '.']) := by rfl
example : isAllowedExtension "notes.exe".toList = false := by decide
example : isAllowedExtension "A.PDF".toList = true := by decide
example : ext ".pdf".toList = ".pdf".toList := by decide
example : base "abc".toList = "abc".toList := by decide

/-! ## Helper lemmas about the decoder -/

theorem qu_cons_plain (c : Char) (t : List Char) (h1 : ¬ c = '%') (h2 : ¬ c = '+') :
    queryUnescape (c :: t) = (queryUnescape t).map (fun d => c :: d) := by
  rw [queryUnescape]
  · exact h1
  · exact h2

theorem qu_cons_hex (a b : Char) (t : List Char) (x y : Nat) (ha : hexVal a = some x)
    (hb : hexVal b = some y) :
    queryUnescape ('%' :: a :: b :: t) =
      (queryUnescape t).map (fun d => Char.ofNat (16 * x + y) :: d) := by
  rw [queryUnescape, ha, hb]

theorem hexVal_slash : hexVal '/' = none := by decide

/-- A `/` in the input survives one percent-decode: `/` is not a hex digit,
so it can only be copied verbatim. -/
theorem qu_slash (s : List Char) : ∀ d, queryUnescape s = some d → '/' ∈ s → '/' ∈ d := by
  induction s using queryUnescape.induct with
  | case1 => intro d _ hs; simp at hs
  | case2 a b t x y hy hx ih =>
    intro d h hs
    rw [qu_cons_hex a b t x y hx hy] at h
    cases hq : queryUnescape t with
    | none => rw [hq] at h; exact Option.noConfusion h
    | some dt =>
      rw [hq] at h
      simp only [Option.map_some', Option.some.injEq] at h
      subst h
      have hmem : '/' ∈ t := by
        rcases List.mem_cons.mp hs with h1 | hs1
        · exact absurd h1 (by decide)
        · rcases List.mem_cons.mp hs1 with h2 | hs2
          · rw [← h2] at hx; rw [hexVal_slash] at hx; cases hx
          · rcases List.mem_cons.mp hs2 with h3 | hs3
            · rw [← h3] at hy; rw [hexVal_slash] at hy; cases hy
            · exact hs3
      exact List.mem_cons_of_mem _ (ih dt hq hmem)
  | case3 a b t hfail =>
    intro d h _
    rw [queryUnescape] at h
    cases ha : hexVal a with
    | none => rw [ha] at h; cases hb : hexVal b <;> rw [hb] at h <;> simp at h
    | some x =>
      rw [ha] at h
      cases hb : hexVal b with
      | none => rw [hb] at h; simp at h
      | some y => exact (hfail x y ha hb).elim
  | case4 rest hshort =>
    intro d h _
    cases rest with
    | nil => exact Option.noConfusion h
    | cons a t1 =>
      cases t1 with
      | nil => exact Option.noConfusion h
      | cons b t2 => exact (hshort a b t2 rfl).elim
  | case5 t ih =>
    intro d h hs
    rw [queryUnescape] at h
    cases hq : queryUnescape t with
    | none => rw [hq] at h; exact Option.noConfusion h
    | some dt =>
      rw [hq] at h
      simp only [Option.map_some', Option.some.injEq] at h
      subst h
      have hmem : '/' ∈ t := by
        rcases List.mem_cons.mp hs with h1 | hs1
        · exact absurd h1 (by decide)
        · exact hs1
      exact List.mem_cons_of_mem _ (ih dt hq hmem)
  | case6 c t hc1 hc2 ih =>
    intro d h hs
    rw [qu_cons_plain c t (fun hh => hc1 hh) (fun hh => hc2 hh)] at h
    cases hq : queryUnescape t with
    | none => rw [hq] at h; exact Option.noConfusion h
    | some dt =>
      rw [hq] at h
      simp only [Option.map_some', Option.some.injEq] at h
      subst h
      rcases List.mem_cons.mp hs with h1 | hs1
      · exact h1 ▸ List.mem_cons_self c dt
      · exact List.mem_cons_of_mem _ (ih dt hq hs1)

theorem wordChar_percent : wordChar '%' = false := by decide

theorem wordChar_plus : wordChar '+' = false := by decide

theorem wordChar_slash : wordChar '/' = false := by decide

theorem wordChar_backslash : wordChar '\\' = false := by decide

/-- On a string of pattern-class characters the decoder is the identity:
the class has no `%` and no `+`. -/
theorem qu_plain (s : List Char) (h : ∀ c ∈ s, wordChar c = true) :
    queryUnescape s = some s := by
  induction s with
  | nil => rfl
  | cons c t ih =>
    have hc : wordChar c = true := h c (List.mem_cons_self c t)
    have h1 : ¬ c = '%' := by intro hh; rw [hh] at hc; rw [wordChar_percent] at hc; cases hc
    have h2 : ¬ c = '+' := by intro hh; rw [hh] at hc; rw [wordChar_plus] at hc; cases hc
    rw [qu_cons_plain c t h1 h2, ih (fun a ha => h a (List.mem_cons_of_mem c ha))]
    rfl

/-! ## Helper lemmas about lists and `filepath.Base` -/

theorem dropWhile_eq_self_of (p : Char → Bool) (l : List Char) (h : ∀ c ∈ l, p c = false) :
    l.dropWhile p = l := by
  cases l with
  | nil => rfl
  | cons a t => rw [List.dropWhile_cons, h a (List.mem_cons_self a t)]; simp

theorem takeWhile_eq_self_of (p : Char → Bool) (l : List Char) (h : ∀ c ∈ l, p c = true) :
    l.takeWhile p = l := by
  induction l with
  | nil => rfl
  | cons a t ih =>
    rw [List.takeWhile_cons, h a (List.mem_cons_self a t)]
    simp [ih (fun c hc => h c (List.mem_cons_of_mem a hc))]

/-- `filepath.Base` of a non-empty separator-free name is the name itself. -/
theorem base_of_noSlash (l : List Char) (hne : l ≠ []) (h : '/' ∉ l) : base l = l := by
  unfold base baseFinish
  rw [if_neg (by simpa using hne)]
  have hd : l.reverse.dropWhile (fun c => c == '/') = l.reverse := by
    apply dropWhile_eq_self_of
    intro c hc
    have : c ∈ l := List.mem_reverse.mp hc
    simp only [beq_eq_false_iff_ne, ne_eq]
    intro hcc; rw [hcc] at this; exact h this
  have ht : l.reverse.takeWhile (fun c => c != '/') = l.reverse := by
    apply takeWhile_eq_self_of
    intro c hc
    have : c ∈ l := List.mem_reverse.mp hc
    simp only [bne_iff_ne, ne_eq]
    intro hcc; rw [hcc] at this; exact h this
  simp only [hd, List.reverse_reverse, ht]
  rw [if_neg (by simpa using hne)]

theorem mem_of_all_wordChar {l : List Char} (h : l.all wordChar = true) {c : Char}
    (hm : c ∈ l) : wordChar c = true :=
  List.all_eq_true.mp h c hm

theorem noSlash_of_all_wordChar {l : List Char} (h : l.all wordChar = true) : '/' ∉ l := by
  intro hm
  have := mem_of_all_wordChar h hm
  rw [wordChar_slash] at this
  cases this

/-- Everything `ValidateFilename` guarantees on acceptance: the accepted
output is exactly the decoded input, and the decoded input passed every
check of the function. -/
theorem validate_ok_spec (s y : List Char) (h : validateFilename s = .ok y) :
    queryUnescape s = some y ∧ y ≠ [] ∧ y.all wordChar = true ∧ y.length ≤ 255 ∧
      List.find? (fun p => containsSub p (lowerStr y)) dangerousPatterns = none ∧
      y ≠ ['.'] ∧ y ≠ ['.', '.'] := by
  unfold validateFilename at h
  split at h
  · exact Except.noConfusion h
  next d hq =>
    split at h
    · exact Except.noConfusion h
    next h0 =>
      split at h
      · exact Except.noConfusion h
      next h1 =>
        split at h
        · exact Except.noConfusion h
        next h2 =>
          have hpat : matchesPattern d = true := by
            cases hmp : matchesPattern d
            · rw [hmp] at h2; simp at h2
            · rfl
          have hdne : d ≠ [] := by
            intro hnil
            rw [hnil] at hpat
            cases hpat
          have hall : d.all wordChar = true := by
            have hthis := hpat
            unfold matchesPattern at hthis
            exact ((Bool.and_eq_true _ _).mp hthis).2
          split at h
          · exact Except.noConfusion h
          next h3 =>
            split at h
            · exact Except.noConfusion h
            next hf =>
              have hbase : base d = d := base_of_noSlash d hdne (noSlash_of_all_wordChar hall)
              rw [hbase] at h
              split at h
              · exact Except.noConfusion h
              next h4 =>
                have hy : d = y := by
                  cases h
                  rfl
                subst hy
                simp only [Bool.or_eq_true, List.isEmpty_iff, decide_eq_true_eq,
                  not_or] at h4
                exact ⟨hq, h4.1.1, hall, by omega, hf, h4.1.2, h4.2⟩

/-- A string that already satisfies every check is accepted unchanged. -/
theorem validate_plain_ok (y : List Char) (h1 : y ≠ []) (h2 : y.all wordChar = true)
    (h3 : y.length ≤ 255)
    (h4 : List.find? (fun p => containsSub p (lowerStr y)) dangerousPatterns = none)
    (h5 : y ≠ ['.']) (h6 : y ≠ ['.', '.']) :
    validateFilename y = .ok y := by
  have hq := qu_plain y (fun c hc => mem_of_all_wordChar h2 hc)
  have h0 : y.contains '\x00' = false := by
    rw [Bool.eq_false_iff]
    intro hc
    have hm : '\x00' ∈ y := by simpa using hc
    have := mem_of_all_wordChar h2 hm
    cases this
  have hctl : y.any isCtl = false := by
    rw [Bool.eq_false_iff]
    intro hc
    rcases List.any_eq_true.mp hc with ⟨c, hm, hcc⟩
    have hw := mem_of_all_wordChar h2 hm
    unfold isCtl at hcc
    unfold wordChar at hw
    have hdot : c = '.' ∨ c = '_' ∨ c = '-' ∨
        (97 ≤ c.toNat ∧ c.toNat ≤ 122) ∨ (65 ≤ c.toNat ∧ c.toNat ≤ 90) ∨
        (48 ≤ c.toNat ∧ c.toNat ≤ 57) := by
      simp only [Bool.or_eq_true, Bool.and_eq_true, decide_eq_true_eq, beq_iff_eq] at hw
      tauto
    simp only [Bool.and_eq_true, decide_eq_true_eq, bne_iff_ne, ne_eq] at hcc
    rcases hdot with hc1 | hc1 | hc1 | hc1 | hc1 | hc1 <;>
      first
        | (rw [hc1] at hcc; revert hcc; decide)
        | omega
  have hmp : matchesPattern y = true := by
    unfold matchesPattern
    rw [h2]
    simp [h1]
  have hb : base y = y := base_of_noSlash y h1 (noSlash_of_all_wordChar h2)
  unfold validateFilename
  simp only [hq, h0, hctl, hmp, h4, hb]
  simp [h1, h5, h6, show ¬ (y.length > 255) from by omega]

/-! ## Claim theorems: the validator -/

/-- C3: every accepted output of `ValidateFilename` is non-empty, built
from `[A-Za-z0-9._-]` only, not `.` or `..`, at most 255 characters, and
free of the path separators `/` and `\`. -/
theorem sanitizedFilename_invariants (s y : List Char) (h : validateFilename s = .ok y) :
    y ≠ [] ∧ (∀ c ∈ y, wordChar c = true) ∧ y ≠ ['.'] ∧ y ≠ ['.', '.'] ∧
      y.length ≤ 255 ∧ '/' ∉ y ∧ '\\' ∉ y := by
  obtain ⟨-, hne, hall, hlen, -, hdot, hdd⟩ := validate_ok_spec s y h
  refine ⟨hne, fun c hc => mem_of_all_wordChar hall hc, hdot, hdd, hlen,
    noSlash_of_all_wordChar hall, ?_⟩
  intro hm
  have := mem_of_all_wordChar hall hm
  rw [wordChar_backslash] at this
  cases this

/-- Witness for C3 at the concrete accepted input `report.pdf`. -/
theorem sanitizedFilename_invariants_witness :
    "report.pdf".toList ≠ [] ∧ (∀ c ∈ "report.pdf".toList, wordChar c = true) ∧
      "report.pdf".toList ≠ ['.'] ∧ "report.pdf".toList ≠ ['.', '.'] ∧
      "report.pdf".toList.length ≤ 255 ∧ '/' ∉ "report.pdf".toList ∧
      '\\' ∉ "report.pdf".toList :=
  sanitizedFilename_invariants "report.pdf".toList "report.pdf".toList (by rfl)

/-- C5: `ValidateFilename` is idempotent on accepted outputs — feeding an
accepted output back in accepts it and returns it unchanged. -/
theorem validateFilename_idempotent (x y : List Char) (h : validateFilename x = .ok y) :
    validateFilename y = .ok y := by
  obtain ⟨-, hne, hall, hlen, hf, hdot, hdd⟩ := validate_ok_spec x y h
  exact validate_plain_ok y hne hall hlen hf hdot hdd

/-- Witness for C5 at the concrete accepted input `report.pdf`. -/
theorem validateFilename_idempotent_witness :
    validateFilename "report.pdf".toList = .ok "report.pdf".toList :=
  validateFilename_idempotent "report.pdf".toList "report.pdf".toList (by rfl)

theorem containsSub_mem (pat : List Char) (l : List Char) (h : containsSub pat l = true) :
    ∀ c ∈ pat, c ∈ l := by
  induction l with
  | nil =>
    intro c hc
    unfold containsSub at h
    have : pat = [] := by simpa using h
    rw [this] at hc
    cases hc
  | cons a t ih =>
    intro c hc
    unfold containsSub at h
    rcases (Bool.or_eq_true _ _).mp h with hp | hr
    · have : pat <+: a :: t := List.isPrefixOf_iff_prefix.mp hp
      exact this.subset hc
    · exact List.mem_cons_of_mem a (ih hr c hc)

/-- C2: any input that contains `../` raw, singly percent-encoded, or
doubly percent-encoded is rejected by `ValidateFilename` (which percent-
decodes exactly once, before any validation step), so the pipeline never
accepts it. -/
theorem traversal_never_accepted (s : List Char) (h : containsTraversalEncoded s = true) :
    (validateFilename s).isOk = false := by
  cases hv : validateFilename s with
  | error e => rfl
  | ok y =>
    exfalso
    obtain ⟨hq, -, hall, -, -, -, -⟩ := validate_ok_spec s y hv
    have hyslash : '/' ∉ y := noSlash_of_all_wordChar hall
    unfold containsTraversalEncoded at h
    simp only [hq] at h
    rcases (Bool.or_eq_true _ _).mp h with hraw | hdec
    · have : '/' ∈ s := containsSub_mem travSeq s hraw '/' (by decide)
      exact hyslash (qu_slash s y hq this)
    · simp only [qu_plain y (fun c hc => mem_of_all_wordChar hall hc)] at hdec
      rcases (Bool.or_eq_true _ _).mp hdec with h1 | h2
      · exact hyslash (containsSub_mem travSeq y h1 '/' (by decide))
      · exact hyslash (containsSub_mem travSeq y h2 '/' (by decide))

/-- Witness for C2 at the concrete input `..%2f..%2fetc%2fpasswd` of the
spec's scenario. -/
theorem traversal_never_accepted_witness :
    containsTraversalEncoded "..%2f..%2fetc%2fpasswd".toList = true ∧
      (validateFilename "..%2f..%2fetc%2fpasswd".toList).isOk = false :=
  ⟨by decide, traversal_never_accepted "..%2f..%2fetc%2fpasswd".toList (by decide)⟩

/-! ## Claim theorems: the containment check (symlink scenario) -/

/-- C1 (failing input): with a symlink `/data/guides/link.pdf` pointing at
`/etc/secret.pdf`, `IsFileSecure` ACCEPTS — it compares `filepath.Abs`
forms, which resolve no symlink — although the canonical (symlink-resolved)
location of the candidate lies outside the base directory's subtree, so
the canonical comparison the spec mandates rejects; the whole pipeline
serves the symlink. -/
theorem isFileSecure_accepts_symlink_escape :
    isFileSecure demoFs "/srv".toList "/data/guides/link.pdf".toList "/data/guides".toList
        = true ∧
      canonicalPath demoFs "/srv".toList "/data/guides/link.pdf".toList
        = some "/etc/secret.pdf".toList ∧
      canonicallyContained demoFs "/srv".toList "/data/guides/link.pdf".toList
        "/data/guides".toList = false ∧
      downloadUserGuide demoFs "/srv".toList "/data/guides".toList "link.pdf".toList
        = .ok "/data/guides/link.pdf".toList :=
  ⟨by decide, by rfl, by decide, by rfl⟩

/-! ## Claim theorems: the extension allow-list -/

/-- C4: `IsAllowedExtension` holds exactly when the lowercased
`filepath.Ext` is in the fixed allow-list, and whenever the validated
filename fails that test `DownloadUserGuide` stops with the
`file type not allowed` error, whatever the filesystem looks like. -/
theorem extension_allowlist_enforced :
    (∀ f : List Char, isAllowedExtension f = true ↔ lowerStr (ext f) ∈ allowedExtensions) ∧
      (∀ (fs : Fs) (cwd bp fname c : List Char), validateFilename fname = .ok c →
        isAllowedExtension c = false →
        downloadUserGuide fs cwd bp fname = .error (.extensionNotAllowed (lowerStr (ext c)))) := by
  constructor
  · intro f
    simp [isAllowedExtension, List.any_eq_true, beq_iff_eq]
  · intro fs cwd bp fname c hv hext
    unfold downloadUserGuide
    simp only [hv, hext]
    simp

/-- Witness for C4 at the spec's scenario `notes.exe`. -/
theorem extension_allowlist_enforced_witness :
    downloadUserGuide ([] : Fs) "/srv".toList "/data/guides".toList "notes.exe".toList
      = .error (.extensionNotAllowed ".exe".toList) := by
  have h := extension_allowlist_enforced.2 ([] : Fs) "/srv".toList "/data/guides".toList
    "notes.exe".toList "notes.exe".toList (by rfl) (by decide)
  rw [show lowerStr (ext "notes.exe".toList) = ".exe".toList from by decide] at h
  exact h

/-! ## Claim theorems: the hidden-file branch -/

theorem extAux_ne_nil_of_dot (rl : List Char) (hdot : '.' ∈ rl)
    (hns : ∀ c ∈ rl, c ≠ '/') : ∀ acc, extAux rl acc ≠ [] := by
  induction rl with
  | nil => cases hdot
  | cons c t ih =>
    intro acc
    unfold extAux
    have hc : c ≠ '/' := hns c (List.mem_cons_self c t)
    rw [if_neg (by simp [hc])]
    by_cases hcd : c = '.'
    · rw [if_pos (by simp [hcd])]
      simp
    · rw [if_neg (by simp [hcd])]
      have hdt : '.' ∈ t := by
        rcases List.mem_cons.mp hdot with h1 | h1
        · exact absurd h1.symm hcd
        · exact h1
      exact ih hdt (fun a ha => hns a (List.mem_cons_of_mem c ha)) (c :: acc)

/-- A validator-produced error is never the hidden-file error: that
constructor appears only in `DownloadUserGuide`. -/
theorem validate_err_ne_hidden (s : List Char) : validateFilename s ≠ .error .hiddenFile := by
  unfold validateFilename
  split
  · simp
  · split
    · simp
    · split
      · simp
      · split
        · simp
        · split
          · simp
          · split
            · simp
            · split
              · simp
              · simp

theorem ext_ne_nil_of_allowed (c : List Char) (h : isAllowedExtension c = true) :
    ext c ≠ [] := by
  intro hnil
  unfold isAllowedExtension at h
  rw [hnil] at h
  revert h
  decide

/-- C10: a separator-free name that begins with a dot always has a
non-empty `filepath.Ext`; `DownloadUserGuide` reaches the hidden-file
branch only with an allow-listed (hence non-empty) extension, so the
`hidden files not allowed` error is unreachable; and the dotfile `.pdf`
passes both the extension check and the hidden-file check. -/
theorem hiddenFile_branch_unreachable :
    (∀ l : List Char, l.head? = some '.' → (∀ c ∈ l, c ≠ '/') → ext l ≠ []) ∧
      (∀ (fs : Fs) (cwd bp fname : List Char),
        downloadUserGuide fs cwd bp fname ≠ .error .hiddenFile) ∧
      validateFilename ".pdf".toList = .ok ".pdf".toList ∧
      isAllowedExtension ".pdf".toList = true ∧
      (['.'].isPrefixOf ".pdf".toList && (ext ".pdf".toList).isEmpty) = false := by
  refine ⟨?_, ?_, by rfl, by decide, by decide⟩
  · intro l hhead hns
    unfold ext
    have hdot : '.' ∈ l.reverse := by
      rw [List.mem_reverse]
      cases l with
      | nil => cases hhead
      | cons a t =>
        have : a = '.' := by simpa using hhead
        rw [this]
        exact List.mem_cons_self '.' t
    exact extAux_ne_nil_of_dot l.reverse hdot
      (fun c hc => hns c (List.mem_reverse.mp hc)) []
  · intro fs cwd bp fname h
    unfold downloadUserGuide at h
    split at h
    next e heq =>
      cases h
      exact validate_err_ne_hidden fname heq
    next c heq =>
      split at h
      · cases h
      next hext =>
        have hallow : isAllowedExtension c = true := by
          cases hx : isAllowedExtension c
          · rw [hx] at hext; simp at hext
          · rfl
        split at h
        next hcond =>
          have := ext_ne_nil_of_allowed c hallow
          rcases Bool.and_eq_true _ _ |>.mp hcond with ⟨-, h2⟩
          rw [List.isEmpty_iff] at h2
          exact this h2
        next hcond =>
          split at h
          · cases h
          · cases h

/-- Witness for C10 at the concrete dotfile `.gitignore` (no separators,
leading dot): its `filepath.Ext` is non-empty. -/
theorem hiddenFile_branch_unreachable_witness :
    ext ".gitignore".toList ≠ [] :=
  hiddenFile_branch_unreachable.1 ".gitignore".toList (by decide) (by decide)

/-! ## Helper lemmas: shape of cleaned paths -/

theorem intercalate_singleton (sep x : List Char) : List.intercalate sep [x] = x := by
  simp [List.intercalate]

theorem intercalate_cons2 (a b : List Char) (t : List (List Char)) :
    List.intercalate ['/'] (a :: b :: t) = a ++ ['/'] ++ List.intercalate ['/'] (b :: t) := by
  simp [List.intercalate, List.intersperse]

theorem intercalate_snoc (c : List Char) (L : List (List Char)) :
    List.intercalate ['/'] (L ++ [c]) = c ∨
      ∃ A, List.intercalate ['/'] (L ++ [c]) = A ++ '/' :: c := by
  induction L with
  | nil => left; rw [List.nil_append]; exact intercalate_singleton ['/'] c
  | cons a t ih =>
    right
    cases hht : t ++ [c] with
    | nil => exact absurd hht (by simp)
    | cons b t2 =>
      rw [List.cons_append, hht, intercalate_cons2, ← hht]
      rcases ih with h1 | ⟨A, hA⟩
      · exact ⟨a, by rw [h1]; simp⟩
      · exact ⟨a ++ '/' :: A, by rw [hA]; simp⟩

theorem cleanPush_normal (rooted : Bool) (S : List (List Char)) (c : List Char)
    (hne : c ≠ []) (hdot : c ≠ ['.']) (hdd : c ≠ ['.', '.']) :
    cleanPush rooted S c = c :: S := by
  unfold cleanPush
  rw [if_neg (by simp [hne, hdot]), if_neg hdd]

theorem modifyHead_append_left (f : List Char → List Char) (a b : List (List Char))
    (h : a ≠ []) : (a ++ b).modifyHead f = a.modifyHead f ++ b := by
  cases a with
  | nil => exact absurd rfl h
  | cons x t => rfl

theorem splitOn_noSlash (c : List Char) (hns : '/' ∉ c) : c.splitOn '/' = [c] := by
  rw [List.splitOn]
  apply List.splitOnP_eq_single
  intro x hx
  simp only [Bool.not_eq_true, beq_eq_false_iff_ne, ne_eq]
  intro he
  exact hns (he ▸ hx)

theorem splitOn_slash_append (xs ys : List Char) :
    (xs ++ '/' :: ys).splitOn '/' = xs.splitOn '/' ++ ys.splitOn '/' := by
  induction xs with
  | nil =>
    simp only [List.nil_append, List.splitOn]
    rw [List.splitOnP_cons]
    simp
  | cons a t ih =>
    simp only [List.cons_append, List.splitOn] at *
    rw [List.splitOnP_cons, List.splitOnP_cons]
    by_cases ha : (a == '/') = true
    · rw [if_pos ha, if_pos ha, ih]
      rfl
    · rw [if_neg ha, if_neg ha, ih,
        modifyHead_append_left _ _ _ (List.splitOnP_ne_nil _ t)]

theorem clean_append_seg (c : List Char) (hne : c ≠ []) (hdot : c ≠ ['.'])
    (hdd : c ≠ ['.', '.']) (hns : '/' ∉ c) (X : List Char) :
    clean (X ++ '/' :: c) = c ∨ ∃ A, clean (X ++ '/' :: c) = A ++ '/' :: c := by
  unfold clean
  rw [if_neg (by simp)]
  rw [splitOn_slash_append, splitOn_noSlash c hns, List.foldl_append, List.foldl_cons,
    List.foldl_nil, cleanPush_normal _ _ c hne hdot hdd]
  unfold cleanAssemble
  rw [List.reverse_cons]
  rcases intercalate_snoc c
      (((X.splitOn '/').foldl (cleanPush (isRooted (X ++ '/' :: c))) []).reverse) with
    hI | ⟨A, hA⟩
  · rw [hI]
    by_cases hr : isRooted (X ++ '/' :: c) = true
    · rw [if_pos hr]
      exact Or.inr ⟨[], rfl⟩
    · rw [if_neg hr, if_neg (by simpa using hne)]
      exact Or.inl rfl
  · rw [hA]
    by_cases hr : isRooted (X ++ '/' :: c) = true
    · rw [if_pos hr]
      exact Or.inr ⟨'/' :: A, rfl⟩
    · rw [if_neg hr, if_neg (by simp)]
      exact Or.inr ⟨A, rfl⟩

theorem isRooted_of_noSlash (c : List Char) (hns : '/' ∉ c) : isRooted c = false := by
  unfold isRooted
  cases c with
  | nil => rfl
  | cons a t =>
    simp only [List.head?_cons, beq_eq_false_iff_ne, ne_eq, Option.some.injEq]
    intro he
    exact hns (he ▸ List.mem_cons_self a t)

theorem clean_of_noSlash (c : List Char) (hne : c ≠ []) (hdot : c ≠ ['.'])
    (hdd : c ≠ ['.', '.']) (hns : '/' ∉ c) : clean c = c := by
  unfold clean
  rw [if_neg (by simpa using hne)]
  rw [splitOn_noSlash c hns, List.foldl_cons, List.foldl_nil,
    cleanPush_normal _ _ c hne hdot hdd, isRooted_of_noSlash c hns]
  unfold cleanAssemble
  simp [intercalate_singleton, hne]

theorem takeWhile_append_stop (p : Char → Bool) (xs : List Char) (b : Char) (t : List Char)
    (h : ∀ x ∈ xs, p x = true) (hb : p b = false) :
    (xs ++ b :: t).takeWhile p = xs := by
  induction xs with
  | nil => rw [List.nil_append, List.takeWhile_cons, hb]; simp
  | cons a s ih =>
    rw [List.cons_append, List.takeWhile_cons, h a (List.mem_cons_self a s)]
    simp [ih (fun x hx => h x (List.mem_cons_of_mem a hx))]

theorem dropWhile_append_stop (p : Char → Bool) (xs : List Char) (b : Char) (t : List Char)
    (h : ∀ x ∈ xs, p x = true) (hb : p b = false) :
    (xs ++ b :: t).dropWhile p = b :: t := by
  induction xs with
  | nil => rw [List.nil_append, List.dropWhile_cons, hb]; simp
  | cons a s ih =>
    rw [List.cons_append, List.dropWhile_cons, h a (List.mem_cons_self a s)]
    simp [ih (fun x hx => h x (List.mem_cons_of_mem a hx))]

theorem base_append_seg (c : List Char) (hne : c ≠ []) (hns : '/' ∉ c) (A : List Char) :
    base (A ++ '/' :: c) = c := by
  unfold base baseFinish
  rw [if_neg (by simp)]
  have hrev : (A ++ '/' :: c).reverse = c.reverse ++ '/' :: A.reverse := by
    simp
  rw [hrev]
  have hkeep : (c.reverse ++ '/' :: A.reverse).dropWhile (fun x => x == '/') =
      c.reverse ++ '/' :: A.reverse := by
    cases hcr : c.reverse with
    | nil => exact absurd (by simpa using hcr) hne
    | cons x xs =>
      rw [List.cons_append, List.dropWhile_cons]
      have hx : x ∈ c := by rw [← List.mem_reverse, hcr]; exact List.mem_cons_self x xs
      have : (x == '/') = false := by
        simp only [beq_eq_false_iff_ne, ne_eq]
        intro he
        exact hns (he ▸ hx)
      rw [this]
      simp
  rw [hkeep, List.reverse_reverse]
  have htake : (c.reverse ++ '/' :: A.reverse).takeWhile (fun x => x != '/') = c.reverse := by
    apply takeWhile_append_stop
    · intro x hx
      simp only [bne_iff_ne, ne_eq]
      intro he
      exact hns (he ▸ List.mem_reverse.mp hx)
    · simp
  rw [htake, List.reverse_reverse]
  rw [if_neg (by simpa using hne)]

theorem base_eq_of_decomp (l c : List Char) (hne : c ≠ []) (hns : '/' ∉ c)
    (hdecomp : l = c ∨ ∃ A, l = A ++ '/' :: c) : base l = c := by
  rcases hdecomp with h | ⟨A, h⟩
  · rw [h]; exact base_of_noSlash c hne hns
  · rw [h]; exact base_append_seg c hne hns A

theorem head_ne_slash (c : List Char) (hns : '/' ∉ c) : ¬ (c.head? = some '/') := by
  intro hh
  cases c with
  | nil => cases hh
  | cons a t =>
    have : a = '/' := by simpa using hh
    exact hns (this ▸ List.mem_cons_self a t)

/-- The final path element of the resolver's output is the sanitized
filename: joining, cleaning and absolutising keep a normal final segment. -/
theorem base_joinAbs (cwd bp c : List Char) (hne : c ≠ []) (hdot : c ≠ ['.'])
    (hdd : c ≠ ['.', '.']) (hns : '/' ∉ c) :
    base (absPath cwd (joinPath bp c)) = c := by
  unfold joinPath
  by_cases hbp : bp.isEmpty = true
  · rw [if_pos (by simpa using hbp), if_neg (by simpa using hne),
      clean_of_noSlash c hne hdot hdd hns]
    unfold absPath
    rw [if_neg (head_ne_slash c hns)]
    exact base_eq_of_decomp _ c hne hns (clean_append_seg c hne hdot hdd hns cwd)
  · rw [if_neg (by simpa using hbp)]
    rcases clean_append_seg c hne hdot hdd hns bp with hq | ⟨A, hq⟩
    · rw [hq]
      unfold absPath
      rw [if_neg (head_ne_slash c hns)]
      exact base_eq_of_decomp _ c hne hns (clean_append_seg c hne hdot hdd hns cwd)
    · rw [hq]
      unfold absPath
      by_cases hr : (A ++ '/' :: c).head? = some '/'
      · rw [if_pos hr]
        exact base_eq_of_decomp _ c hne hns (clean_append_seg c hne hdot hdd hns A)
      · rw [if_neg hr]
        have hassoc : cwd ++ '/' :: (A ++ '/' :: c) = (cwd ++ '/' :: A) ++ '/' :: c := by
          simp
        rw [hassoc]
        exact base_eq_of_decomp _ c hne hns
          (clean_append_seg c hne hdot hdd hns (cwd ++ '/' :: A))

/-! ## Claim theorems: the HTTP download handler -/

/-- C6: every service error is answered by the same generic 404 (the body
does not depend on which check failed); success is a 200 carrying the
resolved file with `Content-Type` and `Content-Disposition` computed from
the base name of the served path, which for the pipeline's output is
exactly the sanitized filename. -/
theorem download_handler_responses :
    (∀ (e : FileErr) (hs : List (String × String)),
        (downloadHandler (.error e) hs).status = 404 ∧
          (downloadHandler (.error e) hs).body = .text "User guide not available" ∧
          downloadHandler (.error e) hs = downloadHandler (.error .accessDenied) hs) ∧
      (∀ (p : List Char) (hs : List (String × String)),
        (downloadHandler (.ok p) hs).status = 200 ∧
          (downloadHandler (.ok p) hs).body = .file p ∧
          headerGet (downloadHandler (.ok p) hs).headers "Content-Type"
            = some (getContentType (base p)) ∧
          headerGet (downloadHandler (.ok p) hs).headers "Content-Disposition"
            = some ("attachment; filename=\"" ++ String.mk (escapeForHeader (base p)) ++ "\"")) ∧
      (∀ (fs : Fs) (cwd bp fname c p : List Char), validateFilename fname = .ok c →
        downloadUserGuide fs cwd bp fname = .ok p → base p = c) := by
  refine ⟨fun e hs => ⟨rfl, rfl, rfl⟩, fun p hs => ⟨rfl, rfl, ?_, ?_⟩, ?_⟩
  · simp [downloadHandler, setHeader, headerGet]
  · simp [downloadHandler, setHeader, headerGet]
  · intro fs cwd bp fname c p hv hdl
    unfold downloadUserGuide at hdl
    simp only [hv] at hdl
    split at hdl
    · exact Except.noConfusion hdl
    split at hdl
    · exact Except.noConfusion hdl
    split at hdl
    · exact Except.noConfusion hdl
    have hp : absPath cwd (joinPath bp c) = p := by
      cases hdl
      rfl
    obtain ⟨-, hne, hall, -, -, hdot, hdd⟩ := validate_ok_spec fname c hv
    rw [← hp]
    exact base_joinAbs cwd bp c hne hdot hdd (noSlash_of_all_wordChar hall)

/-- Witness for C6: for the symlink demo filesystem the resolver's output
has the configured filename as its base. -/
theorem download_handler_responses_witness :
    base "/data/guides/link.pdf".toList = "link.pdf".toList :=
  download_handler_responses.2.2 demoFs "/srv".toList "/data/guides".toList
    "link.pdf".toList "link.pdf".toList "/data/guides/link.pdf".toList (by rfl) (by rfl)

/-! ## Claim theorems: the auth middleware -/

/-- C7 (counterexample): the header value `valid-oauth-token` is not of the
Bearer scheme (`Bearer valid-oauth-token`), yet the middleware invokes the
downstream handler (200 reaches the client, not 401): `strings.TrimPrefix`
leaves a string without the prefix unchanged, so the bare token passes. -/
theorem auth_accepts_bare_token :
    (authMiddleware constOkHandler ⟨some "valid-oauth-token".toList⟩).status = 200 ∧
      "valid-oauth-token".toList ≠ "Bearer valid-oauth-token".toList ∧
      unauthorizedResponse.status = 401 :=
  ⟨by rfl, by decide, by rfl⟩

/-- C7 (amended): the middleware responds 401 without invoking the
downstream handler exactly when stripping an optional `Bearer ` prefix
from the Authorization header does not leave the expected token; it
invokes the handler for `Bearer valid-oauth-token` AND for the bare
`valid-oauth-token` (accepted although it is not of the Bearer scheme);
an absent header is rejected. -/
theorem auth_middleware_amended :
    unauthorizedResponse.status = 401 ∧
      (∀ next : Req → Response, authMiddleware next ⟨none⟩ = unauthorizedResponse) ∧
      (∀ next : Req → Response,
        authMiddleware next ⟨some "Bearer valid-oauth-token".toList⟩
          = next ⟨some "Bearer valid-oauth-token".toList⟩) ∧
      (∀ (h : Option (List Char)) (next : Req → Response), authAllows h = false →
        authMiddleware next ⟨h⟩ = unauthorizedResponse) ∧
      (∀ s : List Char, authAllows (some s) = true ↔
        s = "Bearer valid-oauth-token".toList ∨ s = "valid-oauth-token".toList) := by
  refine ⟨rfl, fun next => rfl, fun next => rfl, ?_, ?_⟩
  · intro h next hfalse
    unfold authMiddleware
    rw [if_neg (by simp [hfalse])]
  · intro s
    unfold authAllows trimPre
    simp only [Option.getD_some]
    by_cases hp : ("Bearer ".toList.isPrefixOf s) = true
    · rw [if_pos hp]
      obtain ⟨t, rfl⟩ : ∃ t, s = "Bearer ".toList ++ t := by
        obtain ⟨t, ht⟩ := (List.isPrefixOf_iff_prefix.mp hp)
        exact ⟨t, ht.symm⟩
      rw [show ("Bearer ".toList.length) = ("Bearer ".toList : List Char).length from rfl,
        List.drop_left]
      constructor
      · intro htt
        rw [beq_iff_eq] at htt
        subst htt
        left
        decide
      · intro hor
        rcases hor with h1 | h1
        · have hb : ("Bearer ".toList ++ t : List Char)
              = "Bearer ".toList ++ "valid-oauth-token".toList := by
            rw [h1]
            decide
          have := List.append_cancel_left hb
          simp [this]
        · exfalso
          have : ("Bearer ".toList.isPrefixOf ("valid-oauth-token".toList : List Char))
              = true := by
            rw [← h1]
            exact hp
          revert this
          decide
    · rw [if_neg hp]
      constructor
      · intro htt
        rw [beq_iff_eq] at htt
        right
        exact htt
      · intro hor
        rcases hor with h1 | h1
        · exfalso
          apply hp
          rw [h1]
          decide
        · simp [h1]

/-- Witness for the amended C7 at the concrete rejected header
`Bearer wrong`. -/
theorem auth_middleware_amended_witness :
    authMiddleware constOkHandler ⟨some "Bearer wrong".toList⟩ = unauthorizedResponse :=
  auth_middleware_amended.2.2.2.1 (some "Bearer wrong".toList) constOkHandler (by decide)

/-! ## Claim theorems: the security middleware -/

/-- C8 (counterexample): the response the middleware gives a trailing-slash
request is produced through the middleware but carries no
`X-Frame-Options` header (nor the other four): the 404 is written before
the five headers are set. -/
theorem security_headers_missing_on_slash :
    (app demoFs "/srv".toList "/data/guides".toList "link.pdf".toList
        "/download/userguide/".toList).status = 404 ∧
      headerGet (app demoFs "/srv".toList "/data/guides".toList "link.pdf".toList
        "/download/userguide/".toList).headers "X-Frame-Options" = none ∧
      ['/'].isSuffixOf "/download/userguide/".toList = true := by
  refine ⟨?_, ?_, by decide⟩ <;> rfl

/-- C8 (amended): a trailing-slash request is answered 404 before any
handler runs (the result does not depend on the wrapped handler) and
without the five security headers; every response for a non-trailing-slash
path carries all five security headers with their specified values. -/
theorem security_middleware_amended :
    (∀ (next : List (String × String) → Response) (path : List Char),
        ['/'].isSuffixOf path = true → securityMiddleware next path = notFoundResponse) ∧
      notFoundResponse.status = 404 ∧
      (∀ (fs : Fs) (cwd bp fname path : List Char),
        ['/'].isSuffixOf path = false → ∀ kv ∈ securityHeaderList,
          headerGet (app fs cwd bp fname path).headers kv.1 = some kv.2) := by
  refine ⟨?_, rfl, ?_⟩
  · intro next path hpath
    unfold securityMiddleware
    rw [if_pos hpath]
  · intro fs cwd bp fname path hpath kv hkv
    unfold app securityMiddleware
    rw [if_neg (by simp [hpath])]
    cases hdl : downloadUserGuide fs cwd bp fname with
    | error e =>
      simp only [downloadHandler]
      fin_cases hkv <;> decide
    | ok p =>
      simp only [downloadHandler]
      fin_cases hkv <;>
        simp [securityHeaderList, setHeader, headerGet, httpError, List.filter, List.find?]

/-- Witness for the amended C8: the five headers are present on a concrete
non-slash request that ends in the generic 404. -/
theorem security_middleware_amended_witness :
    headerGet (app ([] : Fs) "/srv".toList "/data/guides".toList "user-guide.pdf".toList
      "/download/userguide".toList).headers "X-Frame-Options" = some "DENY" :=
  security_middleware_amended.2.2 ([] : Fs) "/srv".toList "/data/guides".toList
    "user-guide.pdf".toList "/download/userguide".toList (by decide)
    ("X-Frame-Options", "DENY") (by decide)

/-! ## Helper lemmas: trimming -/

theorem dropWhile_idem (p : Char → Bool) (l : List Char) :
    (l.dropWhile p).dropWhile p = l.dropWhile p := by
  induction l with
  | nil => rfl
  | cons a t ih =>
    by_cases h : p a = true
    · simp [List.dropWhile_cons, h, ih]
    · simp [List.dropWhile_cons, h]

theorem trimLeft_idem (l : List Char) : trimLeft (trimLeft l) = trimLeft l := by
  unfold trimLeft
  exact dropWhile_idem isSpaceGo l

theorem trimRight_idem (l : List Char) : trimRight (trimRight l) = trimRight l := by
  unfold trimRight
  rw [List.reverse_reverse, dropWhile_idem]

theorem isEmpty_reverse (l : List Char) : l.reverse.isEmpty = l.isEmpty := by
  cases l with
  | nil => rfl
  | cons a t => simp

theorem trimRight_cons (c : Char) (t : List Char) :
    trimRight (c :: t) =
      if (trimRight t).isEmpty then (if isSpaceGo c then [] else [c])
      else c :: trimRight t := by
  unfold trimRight
  rw [show (c :: t).reverse = t.reverse ++ [c] from by simp, List.dropWhile_append]
  have hiso : (t.reverse.dropWhile isSpaceGo).reverse.isEmpty
      = (t.reverse.dropWhile isSpaceGo).isEmpty := isEmpty_reverse _
  by_cases he : (t.reverse.dropWhile isSpaceGo).isEmpty = true
  · rw [if_pos he, hiso, if_pos he]
    by_cases hc : isSpaceGo c = true
    · simp [List.dropWhile_cons, hc]
    · simp [List.dropWhile_cons, hc]
  · rw [if_neg he, hiso, if_neg he]
    simp

theorem trimLeft_trimRight_comm (l : List Char) :
    trimLeft (trimRight l) = trimRight (trimLeft l) := by
  induction l with
  | nil => rfl
  | cons c t ih =>
    by_cases hc : isSpaceGo c = true
    · have hL : trimLeft (c :: t) = trimLeft t := by simp [trimLeft, List.dropWhile_cons, hc]
      rw [hL, ← ih, trimRight_cons]
      by_cases he : (trimRight t).isEmpty = true
      · rw [if_pos he, if_pos hc]
        rw [List.isEmpty_iff.mp he]
      · rw [if_neg he]
        simp [trimLeft, List.dropWhile_cons, hc]
    · have hL : trimLeft (c :: t) = c :: t := by simp [trimLeft, List.dropWhile_cons, hc]
      rw [hL, trimRight_cons]
      by_cases he : (trimRight t).isEmpty = true
      · rw [if_pos he, if_neg hc]
        simp [trimLeft, List.dropWhile_cons, hc]
      · rw [if_neg he]
        simp [trimLeft, List.dropWhile_cons, hc]

theorem trimSpace_trimLeft (l : List Char) : trimSpace (trimLeft l) = trimSpace l := by
  unfold trimSpace
  rw [trimLeft_idem]

theorem trimSpace_trimRight (l : List Char) : trimSpace (trimRight l) = trimSpace l := by
  unfold trimSpace
  rw [trimLeft_trimRight_comm, trimRight_idem, ← trimLeft_trimRight_comm]

theorem trimLeft_append_nonspace (k r : List Char) (c : Char) (hc : isSpaceGo c = false) :
    trimLeft (k ++ c :: r) = trimLeft k ++ c :: r := by
  induction k with
  | nil => simp [trimLeft, List.dropWhile_cons, hc]
  | cons a t ih =>
    by_cases ha : isSpaceGo a = true
    · have h1 : trimLeft (a :: t ++ c :: r) = trimLeft (t ++ c :: r) := by
        unfold trimLeft
        rw [List.cons_append, List.dropWhile_cons, if_pos ha]
      have h2 : trimLeft (a :: t) = trimLeft t := by
        unfold trimLeft
        rw [List.dropWhile_cons, if_pos ha]
      rw [h1, h2, ih]
    · have h1 : trimLeft (a :: t ++ c :: r) = a :: t ++ c :: r := by
        unfold trimLeft
        rw [List.cons_append, List.dropWhile_cons, if_neg (by simp [ha])]
      have h2 : trimLeft (a :: t) = a :: t := by
        unfold trimLeft
        rw [List.dropWhile_cons, if_neg (by simp [ha])]
      rw [h1, h2]

theorem trimRight_append_nonspace (K r : List Char) (c : Char) (hc : isSpaceGo c = false) :
    trimRight (K ++ c :: r) = K ++ c :: trimRight r := by
  unfold trimRight
  rw [show (K ++ c :: r).reverse = r.reverse ++ c :: K.reverse from by simp]
  have hdw : (r.reverse ++ c :: K.reverse).dropWhile isSpaceGo
      = r.reverse.dropWhile isSpaceGo ++ c :: K.reverse := by
    rw [List.dropWhile_append]
    by_cases he : (r.reverse.dropWhile isSpaceGo).isEmpty = true
    · rw [if_pos he, List.dropWhile_cons, hc]
      rw [List.isEmpty_iff.mp he]
      simp
    · rw [if_neg he]
  rw [hdw]
  simp

theorem trim_concat (k v : List Char) :
    trimSpace (k ++ '=' :: v) = trimLeft k ++ '=' :: trimRight v := by
  unfold trimSpace
  rw [trimLeft_append_nonspace k v '=' (by decide),
    trimRight_append_nonspace (trimLeft k) v '=' (by decide)]

theorem singleton_isPrefixOf_iff (c : Char) (l : List Char) :
    ([c].isPrefixOf l) = true ↔ l.head? = some c := by
  cases l with
  | nil => simp [List.isPrefixOf]
  | cons a t =>
    rw [List.isPrefixOf_iff_prefix]
    constructor
    · intro h
      obtain ⟨r, hr⟩ := h
      cases hr
      rfl
    · intro h
      have ha : a = c := by simpa using h
      subst ha
      exact ⟨t, rfl⟩

theorem trimRight_prefixOf (l : List Char) : trimRight l <+: l := by
  unfold trimRight
  have h1 : l.reverse.dropWhile isSpaceGo <:+ l.reverse := List.dropWhile_suffix isSpaceGo
  have h2 : (l.reverse.dropWhile isSpaceGo).reverse <+: l.reverse.reverse :=
    List.reverse_prefix.mpr h1
  rwa [List.reverse_reverse] at h2

theorem head_eq_of_prefix (a b : List Char) (h : a <+: b) (hne : a ≠ []) :
    b.head? = a.head? := by
  obtain ⟨t, rfl⟩ := h
  cases a with
  | nil => exact absurd rfl hne
  | cons x xs => rfl

/-- What one loader iteration does to a well-formed `key=value` line whose
key part contains no `=` of its own. -/
theorem processLine_key (c : Config) (k0 v0 : List Char) (hk : '=' ∉ k0) :
    processLine c (k0 ++ '=' :: v0) = applyKV c (trimSpace k0) (trimSpace v0) := by
  unfold processLine
  rw [trim_concat k0 v0]
  by_cases hhash : (['#'].isPrefixOf (trimLeft k0 ++ '=' :: trimRight v0)) = true
  · rw [if_pos (by simp [hhash])]
    have hh : (trimLeft k0 ++ '=' :: trimRight v0).head? = some '#' :=
      (singleton_isPrefixOf_iff '#' _).mp hhash
    have hkey : trimSpace k0 = [] ∨ (trimSpace k0).head? = some '#' := by
      cases hK : trimLeft k0 with
      | nil =>
        left
        unfold trimSpace
        rw [hK]
        rfl
      | cons a t =>
        rw [hK, List.cons_append] at hh
        have ha : a = '#' := by simpa using hh
        cases hT : trimSpace k0 with
        | nil => exact Or.inl rfl
        | cons b s =>
          right
          have hpre : trimSpace k0 <+: trimLeft k0 := trimRight_prefixOf (trimLeft k0)
          have hh2 := head_eq_of_prefix (trimSpace k0) (trimLeft k0) hpre (by rw [hT]; simp)
          rw [hK, hT] at hh2
          rw [← hh2]
          simp [ha]
    unfold applyKV
    rcases hkey with hkey | hkey
    · rw [if_neg (by rw [hkey]; decide), if_neg (by rw [hkey]; decide),
        if_neg (by rw [hkey]; decide)]
    · rw [if_neg (fun he => by rw [he] at hkey; cases hkey),
        if_neg (fun he => by rw [he] at hkey; cases hkey),
        if_neg (fun he => by rw [he] at hkey; cases hkey)]
  · rw [if_neg (by simp [hhash])]
    have hK : ∀ x ∈ trimLeft k0, (x != '=') = true := by
      intro x hx
      simp only [bne_iff_ne, ne_eq]
      intro he
      exact hk (he ▸ (List.dropWhile_sublist isSpaceGo).subset hx)
    have hsplit : splitEq (trimLeft k0 ++ '=' :: trimRight v0)
        = some (trimLeft k0, trimRight v0) := by
      unfold splitEq
      rw [dropWhile_append_stop _ _ _ _ hK (by decide),
        takeWhile_append_stop _ _ _ _ hK (by decide)]
    simp only [hsplit]
    rw [trimSpace_trimLeft k0, trimSpace_trimRight v0]

/-! ## Claim theorems: the configuration loader -/

/-- C9: the loader returns the three documented defaults when the file is
missing; blank lines, `#` comments, and lines without `=` are skipped; the
key dispatch recognizes exactly `userguide.path`, `server.port` and
`userguide.filename` (anything else leaves the configuration untouched);
and appending a well-formed `key=value` line applies the trimmed value to
the recognized trimmed key. -/
theorem loadConfig_matches_spec :
    loadConfig none = defaultConfig ∧
      defaultConfig = ⟨"./userguides".toList, "8080".toList, "user-guide.pdf".toList⟩ ∧
      (∀ (c : Config) (raw : List Char), trimSpace raw = [] → processLine c raw = c) ∧
      (∀ (c : Config) (raw : List Char), (trimSpace raw).head? = some '#' →
        processLine c raw = c) ∧
      (∀ (c : Config) (raw : List Char), '=' ∉ raw → processLine c raw = c) ∧
      (∀ (c : Config) (v : List Char),
        applyKV c "userguide.path".toList v = { c with userGuidePath := v }) ∧
      (∀ (c : Config) (v : List Char),
        applyKV c "server.port".toList v = { c with port := v }) ∧
      (∀ (c : Config) (v : List Char),
        applyKV c "userguide.filename".toList v = { c with userGuideFile := v }) ∧
      (∀ (c : Config) (k v : List Char),
        k ∉ ["userguide.path".toList, "server.port".toList, "userguide.filename".toList] →
        applyKV c k v = c) ∧
      (∀ (pre : List (List Char)) (k0 v0 : List Char), '=' ∉ k0 →
        loadConfig (some (pre ++ [k0 ++ '=' :: v0]))
          = applyKV (loadConfig (some pre)) (trimSpace k0) (trimSpace v0)) := by
  refine ⟨rfl, rfl, ?_, ?_, ?_, ?_, ?_, ?_, ?_, ?_⟩
  · intro c raw h
    unfold processLine
    rw [if_pos (by simp [h])]
  · intro c raw h
    unfold processLine
    rw [if_pos (by simp [(singleton_isPrefixOf_iff '#' (trimSpace raw)).mpr h])]
  · intro c raw h
    have hmem : '=' ∉ trimSpace raw := by
      intro hm
      apply h
      have h1 : '=' ∈ trimLeft raw := (trimRight_prefixOf (trimLeft raw)).subset hm
      have hsub : List.Sublist (raw.dropWhile isSpaceGo) raw :=
        List.dropWhile_sublist isSpaceGo
      exact hsub.subset h1
    have hsplit : splitEq (trimSpace raw) = none := by
      unfold splitEq
      rw [List.dropWhile_eq_nil_iff.mpr
        (fun x hx => by simp only [bne_iff_ne, ne_eq]; intro he; exact hmem (he ▸ hx))]
    unfold processLine
    by_cases hskip : ((trimSpace raw).isEmpty || ['#'].isPrefixOf (trimSpace raw)) = true
    · rw [if_pos hskip]
    · rw [if_neg hskip]
      simp only [hsplit]
  · intro c v
    unfold applyKV
    rw [if_pos rfl]
  · intro c v
    unfold applyKV
    rw [if_neg (by decide), if_pos rfl]
  · intro c v
    unfold applyKV
    rw [if_neg (by decide), if_neg (by decide), if_pos rfl]
  · intro c k v hk
    unfold applyKV
    rw [if_neg (fun he => hk (by rw [he]; simp)),
      if_neg (fun he => hk (by rw [he]; simp)),
      if_neg (fun he => hk (by rw [he]; simp))]
  · intro pre k0 v0 hk
    show (pre ++ [k0 ++ '=' :: v0]).foldl processLine defaultConfig
        = applyKV (pre.foldl processLine defaultConfig) (trimSpace k0) (trimSpace v0)
    rw [List.foldl_append, List.foldl_cons, List.foldl_nil]
    exact processLine_key _ k0 v0 hk

/-- Witness for C9: the concrete line ` server.port = 9090 ` overrides the
port default; applied through the theorem's last conjunct. -/
theorem loadConfig_matches_spec_witness :
    loadConfig (some [" server.port ".toList ++ '=' :: " 9090 ".toList])
      = { defaultConfig with port := "9090".toList } := by
  have h := loadConfig_matches_spec.2.2.2.2.2.2.2.2.2 [] " server.port ".toList
    " 9090 ".toList (by decide)
  rw [List.nil_append] at h
  rw [h]
  rw [show trimSpace " server.port ".toList = "server.port".toList from by decide,
    show trimSpace " 9090 ".toList = "9090".toList from by decide]
  rw [loadConfig_matches_spec.2.2.2.2.2.2.1]
  rfl

end UserGuide
